import Mathlib

/-!
Verification of the question-generator core in `src/main.py`.

The three core operations — `format_context_fields`, `generate_prompt` and
`parse_llm_response` — are shallowly embedded over `List Char` (Python `str`
is modelled as a list of characters).  Python library primitives used by the
source are modelled explicitly and executably:

* `str.replace`            → `pyReplace` (fuelled scan, fuel = input length);
* `re.sub(r'PAT\n?', '')`  → `subFenceAll` (the two fence patterns of the
                             source are literal, so the regex is a literal
                             scan that also consumes one optional newline);
* `str.strip`              → `pyStrip`;
* `str.title` / `replace('_',' ')` → `pyTitle` / `underscoreToSpace`;
* `str(int)`               → `intStr`;
* `json.loads`             → `jsonParse` (a strict JSON reader over a
                             `Json` value type).

Python `float` appears only through its `str()` rendering (`str(request.ema)`
and extra-field values); it is abstracted as `PyFloat`, the rendered text.
-/

namespace ThinkiQG

/-- Tests whether `pat` is an initial segment of `s` (character-exact). -/
def startsW : List Char → List Char → Bool
  | [], _ => true
  | _ :: _, [] => false
  | p :: ps, c :: cs => p == c && startsW ps cs

/-- Python's `pat in s`: does `pat` occur as a contiguous substring of `s`? -/
def containsSub (s pat : List Char) : Bool :=
  match s with
  | [] => startsW pat []
  | _ :: rest => startsW pat s || containsSub rest pat

/-- Characters removed by Python's `str.strip()` (ASCII whitespace). -/
def isPySpace (c : Char) : Bool :=
  c == ' ' || c == '\t' || c == '\n' || c == '\r' || c == '\x0b' || c == '\x0c'

/-- Python `str.strip()`: drop leading and trailing whitespace. -/
def pyStrip (s : List Char) : List Char :=
  ((s.dropWhile isPySpace).reverse.dropWhile isPySpace).reverse

/-- Python `"\n".join(lines)`: newline-separated, no trailing newline. -/
def joinNL : List (List Char) → List Char
  | [] => []
  | [l] => l
  | l :: rest => l ++ '\n' :: joinNL rest

/-- Python `key.replace('_', ' ')` (single-character pattern). -/
def underscoreToSpace (s : List Char) : List Char :=
  s.map (fun c => if c = '_' then ' ' else c)

/-- One step of Python `str.title()`: an alphabetic character is uppercased
after a non-cased character and lowercased after a cased one.  The source
only feeds ASCII field names through it, so ASCII alphabeticity is used. -/
def pyTitleGo : List Char → Bool → List Char
  | [], _ => []
  | c :: rest, prevCased =>
    (if c.isAlpha then (if prevCased then c.toLower else c.toUpper) else c)
      :: pyTitleGo rest c.isAlpha

/-- Python `str.title()`. -/
def pyTitle (s : List Char) : List Char := pyTitleGo s false

/-- Decimal digit character for a value below ten. -/
def digitChar (n : Nat) : Char := Char.ofNat (48 + n)

/-- Decimal digits of a natural number (fuelled; fuel `n+1` suffices). -/
def natStrF : Nat → Nat → List Char
  | 0, _ => []
  | fuel + 1, n =>
    if n < 10 then [digitChar n] else natStrF fuel (n / 10) ++ [digitChar (n % 10)]

/-- Python `str(n)` for a natural number. -/
def natStr (n : Nat) : List Char := natStrF (n + 1) n

/-- Python `str(i)` for an integer: optional minus sign, then digits. -/
def intStr (i : Int) : List Char :=
  if i < 0 then '-' :: natStr i.natAbs else natStr i.toNat

/-- Fuelled core of Python `str.replace(pat, rep)`: scan left to right,
replacing each non-overlapping occurrence and continuing after the inserted
replacement (the replacement is never rescanned).  With fuel at least the
length of `s` and a nonempty pattern this is exactly `str.replace`; every
call site uses `pyReplace`, which supplies that fuel, with a nonempty
pattern. -/
def replaceF : Nat → List Char → List Char → List Char → List Char
  | 0, s, _, _ => s
  | fuel + 1, s, pat, rep =>
    match s with
    | [] => []
    | c :: rest =>
      if pat ≠ [] ∧ startsW pat s then
        rep ++ replaceF fuel (s.drop pat.length) pat rep
      else
        c :: replaceF fuel rest pat rep

/-- Python `s.replace(pat, rep)` (for the nonempty patterns the source uses). -/
def pyReplace (s pat rep : List Char) : List Char :=
  replaceF s.length s pat rep

/-- Consume one leading newline if present (the `\n?` of the fence regex). -/
def dropNl : List Char → List Char
  | '\n' :: r => r
  | s => s

/-- Fuelled core of `re.sub(r'pat\n?', '', s)` for a literal `pat`: delete
every occurrence of `pat`, each together with one directly following newline
when present, scanning left to right. -/
def goFence : Nat → List Char → List Char → List Char
  | 0, _, s => s
  | fuel + 1, pat, s =>
    match s with
    | [] => []
    | c :: rest =>
      if pat ≠ [] ∧ startsW pat s then
        goFence fuel pat (dropNl (s.drop pat.length))
      else
        c :: goFence fuel pat rest

/-- `re.sub(r'pat\n?', '', s)` for a literal pattern `pat`. -/
def subFenceAll (pat s : List Char) : List Char :=
  goFence s.length pat s

/-- A Python `float`, abstracted as its `str()` rendering: the source only
ever renders its floats to text (`str(request.ema)` and f-string
interpolation), so every claim depends on the float only through that
rendering. -/
structure PyFloat where
  repr : List Char
deriving DecidableEq

/-- A scalar value of a dynamically-typed extra field (pydantic
`extra = "allow"` stores arbitrary JSON scalars). -/
inductive Value where
  | vInt (n : Int)
  | vFloat (f : PyFloat)
  | vStr (s : List Char)
  | vBool (b : Bool)
  | vNull
deriving DecidableEq

/-- Python `str(value)` on a scalar. -/
def pyStrVal : Value → List Char
  | .vInt n => intStr n
  | .vFloat f => f.repr
  | .vStr s => s
  | .vBool true => "True".toList
  | .vBool false => "False".toList
  | .vNull => "None".toList

/-- The `Context` pydantic model of `src/main.py`: four declared fields plus
an ordered open-ended map of extra fields.  pydantic stores extras separately
from declared fields, so an extra can never be named like a declared field;
where a theorem needs that, it is a hypothesis. -/
structure Context where
  age : Int
  onboarding_english_score : Option Int
  onboarding_math_score : Option Int
  language : List Char
  extras : List (List Char × Value)

/-- The `QuestionRequest` pydantic model of `src/main.py`. -/
structure QuestionRequest where
  action : List Char
  year_band : List Char
  subject : List Char
  count : Int
  ema : PyFloat
  context : Context
  template : Option (List Char)
  extras : List (List Char × Value)

/-- The four standard context field names of `format_context_fields`. -/
def standardFields : List (List Char) :=
  ["age".toList, "onboarding_english_score".toList,
   "onboarding_math_score".toList, "language".toList]

/-- `context.dict(exclude_none=True)`: declared fields first (those that are
`None` are dropped), then the extra fields in arrival order with `None`
values dropped.  The nested values are scalars here, so `Value` suffices. -/
def contextDict (c : Context) : List (List Char × Value) :=
  [("age".toList, Value.vInt c.age)]
    ++ (match c.onboarding_english_score with
        | some n => [("onboarding_english_score".toList, Value.vInt n)]
        | none => [])
    ++ (match c.onboarding_math_score with
        | some n => [("onboarding_math_score".toList, Value.vInt n)]
        | none => [])
    ++ [("language".toList, Value.vStr c.language)]
    ++ c.extras.filter (fun kv => kv.2 ≠ Value.vNull)

/-- The display line of one non-standard context field,
`f"- {formatted_key}: {value}"` with `formatted_key = key.replace('_', ' ').title()`. -/
def extraLine (kv : List Char × Value) : List Char :=
  "- ".toList ++ pyTitle (underscoreToSpace kv.1) ++ ": ".toList ++ pyStrVal kv.2

/-- The standard lines of `format_context_fields`: the two scores only when
non-`None` (`hasattr` is always true for declared pydantic fields). -/
def baseLines (c : Context) : List (List Char) :=
  ["- Age: ".toList ++ intStr c.age]
    ++ (match c.onboarding_english_score with
        | some n => ["- Onboarding English Score: ".toList ++ intStr n]
        | none => [])
    ++ (match c.onboarding_math_score with
        | some n => ["- Onboarding Math Score: ".toList ++ intStr n]
        | none => [])
    ++ ["- Language: ".toList ++ c.language]

/-- The list `context_lines` accumulated by `format_context_fields`: the
standard lines followed by one line per non-standard key of
`context.dict(exclude_none=True)`. -/
def contextLines (c : Context) : List (List Char) :=
  (contextDict c).foldl
    (fun acc kv => if kv.1 ∈ standardFields then acc else acc ++ [extraLine kv])
    (baseLines c)

/-- `format_context_fields` of `src/main.py`. -/
def format_context_fields (c : Context) : List Char :=
  joinNL (contextLines c)

/-- Wraps a field name into its placeholder token, Python `f'{{{key}}}'`. -/
def mkPh (k : List Char) : List Char := '{' :: (k ++ ['}'])

/-- The seven reserved placeholder names, in the order the source lists
them in the `replacements` dict. -/
def reservedNames : List (List Char) :=
  ["count".toList, "subject".toList, "year_band".toList, "ema".toList,
   "age".toList, "language".toList, "context".toList]

/-- The initial `replacements` dict of `generate_prompt`: the seven reserved
placeholders in source order.  `str(request.year_band)` is `str` applied to
a `str`, i.e. the identity. -/
def reservedPairs (req : QuestionRequest) : List (List Char × List Char) :=
  [(mkPh "count".toList, intStr req.count),
   (mkPh "subject".toList, req.subject),
   (mkPh "year_band".toList, req.year_band),
   (mkPh "ema".toList, req.ema.repr),
   (mkPh "age".toList, intStr req.context.age),
   (mkPh "language".toList, req.context.language),
   (mkPh "context".toList, format_context_fields req.context)]

/-- The field names excluded from the extra-placeholder scan. -/
def excludedFields : List (List Char) :=
  ["action".toList, "year_band".toList, "subject".toList, "count".toList,
   "ema".toList, "context".toList, "template".toList]

/-- The extra-field scan of `generate_prompt`: iterate over
`request.dict(exclude_none=True)` and add `{key}` for every field outside
the excluded set whose placeholder is not already a key of `replacements`.
All declared request fields are in the excluded set (and pydantic keeps
extras distinct from declared names), so the iteration reduces to the extra
fields, in arrival order, with `None` values dropped by `exclude_none`. -/
def buildReplacements (req : QuestionRequest) : List (List Char × List Char) :=
  (req.extras.filter (fun kv => kv.2 ≠ Value.vNull)).foldl
    (fun acc kv =>
      if kv.1 ∈ excludedFields then acc
      else if acc.any (fun p => p.1 = mkPh kv.1) then acc
      else acc ++ [(mkPh kv.1, pyStrVal kv.2)])
    (reservedPairs req)

/-- The replacement loop of the template branch: one `str.replace` pass per
table entry, in table order. -/
def substituteTemplate (req : QuestionRequest) (t : List Char) : List Char :=
  (buildReplacements req).foldl (fun acc pv => pyReplace acc pv.1 pv.2) t

/-- Python truthiness of the `Optional[str]` template field: `None` and the
empty string are falsy. -/
def pyTruthyOptStr : Option (List Char) → Bool
  | none => false
  | some s => !s.isEmpty

/-- Python `str.lower()` (ASCII, which covers the comparisons the source
makes). -/
def pyLower (s : List Char) : List Char := s.map Char.toLower

/-- The default English prompt f-string of `generate_prompt`. -/
def englishPrompt (req : QuestionRequest) : List Char :=
  "Generate ".toList ++ intStr req.count
    ++ " age-appropriate English questions for a ".toList
    ++ intStr req.context.age
    ++ "-year-old student in year band ".toList ++ req.year_band
    ++ ".\n\nContext:\n".toList ++ format_context_fields req.context
    ++ "\n- EMA (Expected Mastery Average): ".toList ++ req.ema.repr
    ++ "\n\nRequirements:\n- Questions should be appropriate for year band ".toList
    ++ req.year_band
    ++ "\n- Difficulty should align with EMA score of ".toList ++ req.ema.repr
    ++ "\n- Questions should match the student's English proficiency level\n- Return questions in ".toList
    ++ req.context.language
    ++ "\n\nReturn a JSON array with ".toList ++ intStr req.count
    ++ " questions. Each question should have:\n- \"id\": unique identifier\n- \"question\": the question text\n- \"type\": question type (e.g., \"multiple_choice\", \"fill_in_blank\",\n  \"comprehension\", etc.)\n- \"options\": array of answer options (if applicable)\n- \"correct_answer\": the correct answer\n- \"difficulty\": difficulty level\n- \"explanation\": brief explanation of the answer\n\nFormat the response as valid JSON only, no markdown formatting.".toList

/-- The default Math prompt f-string of `generate_prompt`. -/
def mathPrompt (req : QuestionRequest) : List Char :=
  "Generate ".toList ++ intStr req.count
    ++ " age-appropriate Math questions for a ".toList
    ++ intStr req.context.age
    ++ "-year-old student in year band ".toList ++ req.year_band
    ++ ".\n\nContext:\n".toList ++ format_context_fields req.context
    ++ "\n- EMA (Expected Mastery Average): ".toList ++ req.ema.repr
    ++ "\n\nRequirements:\n- Questions should be appropriate for year band ".toList
    ++ req.year_band
    ++ "\n- Difficulty should align with EMA score of ".toList ++ req.ema.repr
    ++ "\n- Questions should match the student's math proficiency level\n- Return questions in ".toList
    ++ req.context.language
    ++ "\n\nReturn a JSON array with ".toList ++ intStr req.count
    ++ " questions. Each question should have:\n- \"id\": unique identifier\n- \"question\": the question text\n- \"type\": question type (e.g., \"multiple_choice\", \"word_problem\",\n  \"calculation\", etc.)\n- \"options\": array of answer options (if applicable)\n- \"correct_answer\": the correct answer\n- \"difficulty\": difficulty level\n- \"explanation\": brief explanation of the solution\n\nFormat the response as valid JSON only, no markdown formatting.".toList

/-- The default generic prompt f-string of `generate_prompt`. -/
def genericPrompt (req : QuestionRequest) : List Char :=
  "Generate ".toList ++ intStr req.count
    ++ " age-appropriate ".toList ++ req.subject
    ++ " questions for a ".toList ++ intStr req.context.age
    ++ "-year-old student in year band ".toList ++ req.year_band
    ++ ".\n\nContext:\n".toList ++ format_context_fields req.context
    ++ "\n- EMA (Expected Mastery Average): ".toList ++ req.ema.repr
    ++ "\n\nReturn a JSON array with ".toList ++ intStr req.count
    ++ " questions. Each question should have:\n- \"id\": unique identifier\n- \"question\": the question text\n- \"type\": question type\n- \"options\": array of answer options (if applicable)\n- \"correct_answer\": the correct answer\n- \"difficulty\": difficulty level\n- \"explanation\": brief explanation\n\nFormat the response as valid JSON only, no markdown formatting.".toList

/-- The default-mode branch of `generate_prompt`: case-insensitive subject
dispatch. -/
def defaultPrompt (req : QuestionRequest) : List Char :=
  if pyLower req.subject = "english".toList then englishPrompt req
  else if pyLower req.subject = "math".toList then mathPrompt req
  else genericPrompt req

/-- `generate_prompt` of `src/main.py`.  `if request.template:` is Python
truthiness: the template branch runs only for a present, nonempty template. -/
def generate_prompt (req : QuestionRequest) : List Char :=
  if pyTruthyOptStr req.template then
    substituteTemplate req (req.template.getD [])
  else
    defaultPrompt req

/-- A decoded JSON value as `json.loads` produces it.  Integral number
literals become Python `int` (`num`); numbers with a fraction or exponent,
and the `NaN` / `Infinity` constants Python accepts, become Python `float`,
abstracted by the literal text consumed (`numF`) — no claim inspects a
float's value. -/
inductive Json where
  | null
  | bool (b : Bool)
  | num (n : Int)
  | numF (lit : List Char)
  | str (s : List Char)
  | arr (elems : List Json)
  | obj (fields : List (List Char × Json))

/-- JSON insignificant whitespace. -/
def jsonWsChar (c : Char) : Bool :=
  c == ' ' || c == '\t' || c == '\n' || c == '\r'

/-- Skip insignificant whitespace. -/
def skipWs (s : List Char) : List Char := s.dropWhile jsonWsChar

/-- Value of a hex digit, if any. -/
def hexVal (c : Char) : Option Nat :=
  if '0' ≤ c ∧ c ≤ '9' then some (c.toNat - 48)
  else if 'a' ≤ c ∧ c ≤ 'f' then some (c.toNat - 87)
  else if 'A' ≤ c ∧ c ≤ 'F' then some (c.toNat - 55)
  else none

/-- Body of a JSON string literal, after the opening quote: returns the
decoded content and the rest of the input after the closing quote.  Raw
control characters are rejected as in strict `json.loads`; a `\uXXXX`
escape becomes the character with that code (lone surrogates, which Python
would keep as such, have no `Char` and degrade to the null character — no
claim exercises them). -/
def jpStringGo : List Char → Option (List Char × List Char)
  | [] => none
  | '"' :: rest => some ([], rest)
  | '\\' :: e :: rest =>
    match e with
    | '"' => match jpStringGo rest with
             | some (cs, r) => some ('"' :: cs, r)
             | none => none
    | '\\' => match jpStringGo rest with
              | some (cs, r) => some ('\\' :: cs, r)
              | none => none
    | '/' => match jpStringGo rest with
             | some (cs, r) => some ('/' :: cs, r)
             | none => none
    | 'b' => match jpStringGo rest with
             | some (cs, r) => some ('\x08' :: cs, r)
             | none => none
    | 'f' => match jpStringGo rest with
             | some (cs, r) => some ('\x0c' :: cs, r)
             | none => none
    | 'n' => match jpStringGo rest with
             | some (cs, r) => some ('\n' :: cs, r)
             | none => none
    | 'r' => match jpStringGo rest with
             | some (cs, r) => some ('\r' :: cs, r)
             | none => none
    | 't' => match jpStringGo rest with
             | some (cs, r) => some ('\t' :: cs, r)
             | none => none
    | 'u' =>
      match rest with
      | h1 :: h2 :: h3 :: h4 :: rest2 =>
        match hexVal h1, hexVal h2, hexVal h3, hexVal h4 with
        | some a, some b, some c, some d =>
          match jpStringGo rest2 with
          | some (cs, r) => some (Char.ofNat (((a * 16 + b) * 16 + c) * 16 + d) :: cs, r)
          | none => none
        | _, _, _, _ => none
      | _ => none
    | _ => none
  | c :: rest =>
    if c.toNat < 32 then none
    else match jpStringGo rest with
         | some (cs, r) => some (c :: cs, r)
         | none => none

/-- Split off a leading run of decimal digits. -/
def spanDigits (s : List Char) : List Char × List Char :=
  (s.takeWhile Char.isDigit, s.dropWhile Char.isDigit)

/-- Numeric value of a digit run. -/
def digitsToNat (ds : List Char) : Nat :=
  ds.foldl (fun acc c => acc * 10 + (c.toNat - 48)) 0

/-- Optional fraction part of a JSON number: `.` followed by at least one
digit, or nothing. -/
def jpFrac (s : List Char) : Option (List Char × List Char) :=
  match s with
  | '.' :: r =>
    let (fs, r2) := spanDigits r
    if fs = [] then none else some ('.' :: fs, r2)
  | _ => some ([], s)

/-- Optional exponent part of a JSON number. -/
def jpExp (s : List Char) : Option (List Char × List Char) :=
  match s with
  | c :: r =>
    if c = 'e' ∨ c = 'E' then
      let (sgn, r1) : List Char × List Char :=
        match r with
        | '+' :: rr => (['+'], rr)
        | '-' :: rr => (['-'], rr)
        | _ => ([], r)
      let (ds, r2) := spanDigits r1
      if ds = [] then none else some (c :: (sgn ++ ds), r2)
    else some ([], s)
  | [] => some ([], [])

/-- A JSON number per the strict grammar: optional minus, integer part
without leading zeros, optional fraction, optional exponent. -/
def jpNumber (s : List Char) : Option (Json × List Char) :=
  let (sign, s1) : List Char × List Char :=
    match s with
    | '-' :: r => (['-'], r)
    | _ => ([], s)
  let (ds, s2) := spanDigits s1
  if ds = [] then none
  else if 1 < ds.length ∧ ds.head? = some '0' then none
  else
    match jpFrac s2 with
    | none => none
    | some (fr, s3) =>
      match jpExp s3 with
      | none => none
      | some (ex, s4) =>
        if fr = [] ∧ ex = [] then
          some (.num (if sign = [] then (digitsToNat ds : Int)
                      else -(digitsToNat ds : Int)), s4)
        else
          some (.numF (sign ++ ds ++ fr ++ ex), s4)

/-- Parsing mode of the fuelled JSON reader: a single value, the elements
of an array after its `[`, or the members of an object after its `{`. -/
inductive JMode where
  | value
  | arrElems (acc : List Json)
  | objFields (acc : List (List Char × Json))

/-- Python `dict` insertion: a repeated key keeps its first position but
takes the last value. -/
def dictInsert (kvs : List (List Char × Json)) (k : List Char) (v : Json) :
    List (List Char × Json) :=
  if kvs.any (fun p => p.1 = k) then
    kvs.map (fun p => if p.1 = k then (k, v) else p)
  else kvs ++ [(k, v)]

/-- The fuelled recursive-descent reader behind `jsonParse`.  Every
recursive call consumes one unit of fuel and the driver supplies far more
fuel than any parse can use, so the fuel never runs out on inputs the
grammar accepts. -/
def jp : Nat → JMode → List Char → Option (Json × List Char)
  | 0, _, _ => none
  | fuel + 1, .value, s0 =>
    let s := skipWs s0
    match s with
    | '{' :: r =>
      (match skipWs r with
       | '}' :: r2 => some (.obj [], r2)
       | _ => jp fuel (.objFields []) r)
    | '[' :: r =>
      (match skipWs r with
       | ']' :: r2 => some (.arr [], r2)
       | _ => jp fuel (.arrElems []) r)
    | '"' :: r =>
      (match jpStringGo r with
       | some (cs, r2) => some (.str cs, r2)
       | none => none)
    | _ =>
      if startsW "true".toList s then some (.bool true, s.drop 4)
      else if startsW "false".toList s then some (.bool false, s.drop 5)
      else if startsW "null".toList s then some (.null, s.drop 4)
      else if startsW "NaN".toList s then some (.numF "NaN".toList, s.drop 3)
      else if startsW "Infinity".toList s then some (.numF "Infinity".toList, s.drop 8)
      else if startsW "-Infinity".toList s then some (.numF "-Infinity".toList, s.drop 9)
      else jpNumber s
  | fuel + 1, .arrElems acc, s =>
    (match jp fuel .value s with
     | some (v, r) =>
       (match skipWs r with
        | ',' :: r2 => jp fuel (.arrElems (acc ++ [v])) r2
        | ']' :: r2 => some (.arr (acc ++ [v]), r2)
        | _ => none)
     | none => none)
  | fuel + 1, .objFields acc, s =>
    (match skipWs s with
     | '"' :: r =>
       (match jpStringGo r with
        | some (k, r2) =>
          (match skipWs r2 with
           | ':' :: r3 =>
             (match jp fuel .value r3 with
              | some (v, r4) =>
                (match skipWs r4 with
                 | ',' :: r5 => jp fuel (.objFields (dictInsert acc k v)) r5
                 | '}' :: r5 => some (.obj (dictInsert acc k v), r5)
                 | _ => none)
              | none => none)
           | _ => none)
        | none => none)
     | _ => none)

/-- `json.loads`: a strict decode of the whole text, `none` on any syntax
failure. -/
def jsonParse (s : List Char) : Option Json :=
  match jp (4 * s.length + 16) .value s with
  | some (v, rest) => if skipWs rest = [] then some v else none
  | none => none

/-- The `ValueError` the source raises when no decode attempt succeeds —
the spec's ParseError. -/
structure ParseError where
  msg : List Char
deriving DecidableEq

/-- The exact failure the source raises. -/
def parseFailure : ParseError :=
  ⟨"Failed to parse LLM response as JSON".toList⟩

/-- `"questions" in decoded` for a decoded object. -/
def hasKey (kvs : List (List Char × Json)) (k : List Char) : Bool :=
  kvs.any (fun p => p.1 = k)

/-- `decoded[key]` for a decoded object (call sites guard with `hasKey`). -/
def dictGet (kvs : List (List Char × Json)) (k : List Char) : Json :=
  match kvs.find? (fun p => p.1 = k) with
  | some p => p.2
  | none => .null

/-- The literal text of the pattern `` ```json ``. -/
def fenceJsonPat : List Char := ['`', '`', '`', 'j', 's', 'o', 'n']

/-- The literal text of the pattern `` ``` ``. -/
def fencePat : List Char := ['`', '`', '`']

/-- Stage 1 of `parse_llm_response`: the two `re.sub` calls (which delete
every occurrence of their pattern anywhere in the text) followed by
`strip()`. -/
def stage1Clean (s : List Char) : List Char :=
  pyStrip (subFenceAll fencePat (subFenceAll fenceJsonPat s))

/-- The fallback `re.search(r'\[.*\]', text, re.DOTALL)`: with a greedy
`.*` that may span newlines, the leftmost match runs from the first `[` to
the last `]` of the text, and exists exactly when the first `[` sits before
the last `]`. -/
def bracketSpan (s : List Char) : Option (List Char) :=
  match s.findIdx? (fun c => c = '['), s.reverse.findIdx? (fun c => c = ']') with
  | some i, some rj =>
    let j := s.length - 1 - rj
    if i < j then some ((s.drop i).take (j - i + 1)) else none
  | _, _ => none

/-- `parse_llm_response` of `src/main.py`.  Python's return statements are
untyped, so the success value is a `Json` (the list-of-records annotation in
the source is not enforced). -/
def parse_llm_response (s : List Char) : Except ParseError Json :=
  let cleaned := stage1Clean s
  match jsonParse cleaned with
  | some q =>
    match q with
    | .arr l => .ok (.arr l)
    | .obj kvs =>
      if hasKey kvs "questions".toList then .ok (dictGet kvs "questions".toList)
      else .ok (.arr [.obj kvs])
    | v => .ok (.arr [v])
  | none =>
    match bracketSpan cleaned with
    | some sub =>
      (match jsonParse sub with
       | some v => .ok v
       | none => .error parseFailure)
    | none => .error parseFailure

/-- A template decomposed into pieces: brace-free literal text and `{name}`
placeholder tokens. -/
inductive TPiece where
  | lit (s : List Char)
  | tok (name : List Char)

/-- Reassemble a decomposed template. -/
def renderT : List TPiece → List Char
  | [] => []
  | .lit s :: rest => s ++ renderT rest
  | .tok n :: rest => mkPh n ++ renderT rest

/-- Effect of one replacement pass on one piece: the matching token becomes
literal replacement text, everything else is untouched. -/
def substTok (n v : List Char) : TPiece → TPiece
  | .lit s => .lit s
  | .tok m => if m = n then .lit v else .tok m

/-- Well-formedness for the pass lemma: literal segments and token names
contain no brace characters. -/
def wfPieces (ps : List TPiece) : Prop :=
  ∀ p ∈ ps, match p with
  | TPiece.lit s => '{' ∉ s ∧ '}' ∉ s
  | TPiece.tok m => '{' ∉ m ∧ '}' ∉ m

/-- Pointwise effect of a whole sequence of passes on one piece. -/
def applyNV (pairs : List (List Char × List Char)) (p : TPiece) : TPiece :=
  pairs.foldl (fun q nv => substTok nv.1 nv.2 q) p

/-- The reserved entries as (name, value) pairs, in source order. -/
def reservedNV (req : QuestionRequest) : List (List Char × List Char) :=
  [("count".toList, intStr req.count),
   ("subject".toList, req.subject),
   ("year_band".toList, req.year_band),
   ("ema".toList, req.ema.repr),
   ("age".toList, intStr req.context.age),
   ("language".toList, req.context.language),
   ("context".toList, format_context_fields req.context)]

/-- The single fold step of the extra-placeholder scan. -/
def extraStep (acc : List (List Char × List Char)) (kv : List Char × Value) :
    List (List Char × List Char) :=
  if kv.1 ∈ excludedFields then acc
  else if acc.any (fun p => p.1 = mkPh kv.1) then acc
  else acc ++ [(mkPh kv.1, pyStrVal kv.2)]

/-- The Stage 1 cleaning exactly as claim C2 states it: strip surrounding
whitespace, then only a leading fence marker (optionally tagged as JSON) and
a trailing fence marker, then whitespace again; markers elsewhere in the
text are untouched. -/
def stage1Claimed (s : List Char) : List Char :=
  let t := pyStrip s
  let t2 := if startsW fenceJsonPat t then t.drop fenceJsonPat.length
            else if startsW fencePat t then t.drop fencePat.length
            else t
  let t3 := if startsW fencePat.reverse t2.reverse then
              t2.take (t2.length - fencePat.length)
            else t2
  pyStrip t3

/-- The Stage 2 result shape as the spec states it: a decoded list is
returned as-is, a keyed structure containing `questions` yields the value
under that key, anything else is wrapped in a one-element list. -/
def stage2Shape : Json → Json
  | .arr l => .arr l
  | .obj kvs =>
    if hasKey kvs "questions".toList then dictGet kvs "questions".toList
    else .arr [.obj kvs]
  | v => .arr [v]

/-- Discriminator: is this decoded value a list? -/
def jsonIsArr : Json → Bool
  | .arr _ => true
  | _ => false

/-- The Context Formatter exactly as claim C6 states it: standard lines,
then a line for EVERY extra field not among the four standard names, in
arrival order. -/
def formatContextClaimed (c : Context) : List Char :=
  joinNL (baseLines c
    ++ (c.extras.filter (fun kv => kv.1 ∉ standardFields)).map extraLine)

/-- The Context Formatter as amended: only extra fields with a non-null
value produce a line (`context.dict(exclude_none=True)` drops the rest). -/
def formatContextAmended (c : Context) : List Char :=
  joinNL (baseLines c
    ++ ((c.extras.filter (fun kv => kv.2 ≠ Value.vNull)).filter
          (fun kv => kv.1 ∉ standardFields)).map extraLine)

/-- The standard fields behind the emitted standard lines. -/
def stdEmitted (c : Context) : List (List Char) :=
  ["age".toList]
    ++ (match c.onboarding_english_score with
        | some _ => ["onboarding_english_score".toList]
        | none => [])
    ++ (match c.onboarding_math_score with
        | some _ => ["onboarding_math_score".toList]
        | none => [])
    ++ ["language".toList]

/-- The extra fields behind the emitted extra lines, in emission order. -/
def extraEmitted (c : Context) : List (List Char) :=
  ((c.extras.filter (fun kv => kv.2 ≠ Value.vNull)).filter
      (fun kv => kv.1 ∉ standardFields)).map Prod.fst

/-- The logical field behind each emitted line, in emission order. -/
def emittedFields (c : Context) : List (List Char) :=
  stdEmitted c ++ extraEmitted c

/-! ### Concrete test inputs -/

/-- The fenced-response example of the spec. -/
def exC2 : List Char := "```json\n[\x7b\"id\":1\x7d]\n```".toList

/-- A JSON array whose string element contains a fence marker mid-text. -/
def exC2mid : List Char := "[\"a```b\"]".toList

/-- The keyed-structure example of the spec. -/
def exC3 : List Char :=
  "\x7b\"questions\": [\x7b\"id\":1\x7d,\x7b\"id\":2\x7d]\x7d".toList

/-- The undecodable example of the spec. -/
def exC4 : List Char := "not json at all".toList

/-- The prose-wrapped array example of the spec. -/
def exC5 : List Char :=
  "here is the answer: [\x7b\"id\":1\x7d] hope it helps".toList

/-- The bracket span inside `exC5`. -/
def exC5span : List Char := "[\x7b\"id\":1\x7d]".toList

/-- A keyed structure whose `questions` value is not a list. -/
def exC10 : List Char := "\x7b\"questions\": \"hi\"\x7d".toList

/-- A plain student context. -/
def ctxPlain : Context :=
  { age := 9, onboarding_english_score := some 7, onboarding_math_score := none,
    language := "en".toList, extras := [] }

/-- A plain request (default mode). -/
def reqBase : QuestionRequest :=
  { action := "generate".toList, year_band := "Y5".toList,
    subject := "Math".toList, count := 3, ema := PyFloat.mk "0.5".toList,
    context := ctxPlain, template := none, extras := [] }

/-- Template `{subject}` whose subject value is itself the language token. -/
def reqC1 : QuestionRequest :=
  { reqBase with subject := mkPh "language".toList,
                 template := some (mkPh "subject".toList) }

/-- Template `{subject}` whose subject value is the count token. -/
def reqC1b : QuestionRequest :=
  { reqBase with subject := mkPh "count".toList,
                 template := some (mkPh "subject".toList) }

/-- A request whose template is present but empty. -/
def reqC8 : QuestionRequest :=
  { reqBase with subject := "History".toList, template := some [] }

/-- A request with extra fields named `topic` and `age`. -/
def reqC7 : QuestionRequest :=
  { reqBase with
      template := some (mkPh "topic".toList ++ (' ' :: mkPh "age".toList)),
      extras := [("topic".toList, Value.vStr "algebra".toList),
                 ("age".toList, Value.vInt 99)] }

/-- A context whose language value contains a brace token. -/
def ctxC9 : Context := { ctxPlain with language := mkPh "foo".toList }

/-- A template made only of the reserved language placeholder, over `ctxC9`. -/
def reqC9 : QuestionRequest :=
  { reqBase with template := some (mkPh "language".toList), context := ctxC9 }

/-- A template decomposition using only reserved tokens. -/
def psW : List TPiece :=
  [TPiece.lit "Count ".toList, TPiece.tok "count".toList,
   TPiece.lit " for ".toList, TPiece.tok "subject".toList]

/-- A request carrying the rendered `psW` template. -/
def reqC9w : QuestionRequest := { reqBase with template := some (renderT psW) }

/-- A context with a null-valued extra field. -/
def ctxC6 : Context :=
  { age := 7, onboarding_english_score := none, onboarding_math_score := none,
    language := "en".toList, extras := [("note".toList, Value.vNull)] }

/-- A context with an ordinary extra field. -/
def ctxC6w : Context :=
  { ctxC6 with extras := [("learning_style".toList, Value.vStr "visual".toList)] }

/-! ### Lemmas about `startsW` and `containsSub` -/

theorem startsW_iff (pat s : List Char) :
    startsW pat s = true ↔ ∃ t, s = pat ++ t := by
  induction pat generalizing s with
  | nil => simp [startsW]
  | cons p ps ih =>
    cases s with
    | nil => simp [startsW]
    | cons c cs =>
      simp only [startsW, Bool.and_eq_true, beq_iff_eq]
      constructor
      · rintro ⟨rfl, h⟩
        obtain ⟨t, rfl⟩ := (ih cs).1 h
        exact ⟨t, rfl⟩
      · rintro ⟨t, ht⟩
        injection ht with h1 h2
        exact ⟨h1.symm, (ih cs).2 ⟨t, h2⟩⟩

theorem startsW_append_self (pat t : List Char) :
    startsW pat (pat ++ t) = true :=
  (startsW_iff pat (pat ++ t)).2 ⟨t, rfl⟩

theorem startsW_ne_head (h : Char) (t s : List Char)
    (hs : s.head? ≠ some h) : startsW (h :: t) s = false := by
  cases s with
  | nil => rfl
  | cons c cs =>
    have : h ≠ c := fun he => hs (by simp [he])
    simp [startsW, this]

theorem containsSub_false_of_head (h : Char) (t s : List Char)
    (hs : h ∉ s) : containsSub s (h :: t) = false := by
  induction s with
  | nil => rfl
  | cons c cs ih =>
    have hc : h ≠ c := fun he => hs (by simp [he])
    simp only [containsSub, Bool.or_eq_false_iff]
    exact ⟨by simp [startsW, hc], ih (fun hm => hs (List.mem_cons_of_mem _ hm))⟩

/-! ### Lemmas about `replaceF` / `pyReplace` -/

theorem replaceF_nil (fuel : Nat) (pat rep : List Char) :
    replaceF fuel [] pat rep = [] := by
  cases fuel <;> rfl

theorem replaceF_noOccur : ∀ (fuel : Nat) (s pat rep : List Char),
    containsSub s pat = false → replaceF fuel s pat rep = s := by
  intro fuel
  induction fuel with
  | zero => intro s pat rep _; rfl
  | succ f ih =>
    intro s pat rep h
    cases s with
    | nil => rfl
    | cons c rest =>
      simp only [containsSub, Bool.or_eq_false_iff] at h
      simp only [replaceF]
      rw [if_neg, ih rest pat rep h.2]
      rintro ⟨-, hsw⟩
      rw [h.1] at hsw
      exact Bool.false_ne_true hsw

theorem pyReplace_noOccur (s pat rep : List Char)
    (h : containsSub s pat = false) : pyReplace s pat rep = s :=
  replaceF_noOccur _ s pat rep h

theorem replaceF_irrel : ∀ (f : Nat) (g : Nat) (s pat rep : List Char),
    s.length ≤ f → s.length ≤ g → replaceF f s pat rep = replaceF g s pat rep := by
  intro f
  induction f with
  | zero =>
    intro g s pat rep hf _
    have : s = [] := List.length_eq_zero.1 (Nat.le_zero.1 hf)
    subst this
    exact (replaceF_nil g pat rep).symm
  | succ f ih =>
    intro g s pat rep hf hg
    cases s with
    | nil => rw [replaceF_nil, replaceF_nil]
    | cons c rest =>
      cases g with
      | zero => exact absurd hg (by simp)
      | succ g =>
        simp only [replaceF]
        by_cases hcond : pat ≠ [] ∧ startsW pat (c :: rest) = true
        · rw [if_pos hcond, if_pos hcond]
          have hlen : ((c :: rest).drop pat.length).length ≤ f := by
            have h1 : 1 ≤ pat.length := by
              cases pat with
              | nil => exact absurd rfl hcond.1
              | cons _ _ => simp
            have := List.length_drop pat.length (c :: rest)
            omega
          have hlen2 : ((c :: rest).drop pat.length).length ≤ g := by
            have h1 : 1 ≤ pat.length := by
              cases pat with
              | nil => exact absurd rfl hcond.1
              | cons _ _ => simp
            have := List.length_drop pat.length (c :: rest)
            omega
          rw [ih g _ pat rep hlen hlen2]
        · rw [if_neg hcond, if_neg hcond]
          have hr : rest.length ≤ f := by
            simp only [List.length_cons] at hf; omega
          have hr2 : rest.length ≤ g := by
            simp only [List.length_cons] at hg; omega
          rw [ih g rest pat rep hr hr2]

theorem pyReplace_eq_replaceF (f : Nat) (s pat rep : List Char)
    (h : s.length ≤ f) : pyReplace s pat rep = replaceF f s pat rep :=
  replaceF_irrel s.length f s pat rep le_rfl h

theorem replaceF_succ (f : Nat) (c : Char) (rest pat rep : List Char) :
    replaceF (f + 1) (c :: rest) pat rep =
      if pat ≠ [] ∧ startsW pat (c :: rest) then
        rep ++ replaceF f ((c :: rest).drop pat.length) pat rep
      else c :: replaceF f rest pat rep := rfl

theorem pyReplace_cons_neg (c : Char) (s pat rep : List Char)
    (h : startsW pat (c :: s) = false) :
    pyReplace (c :: s) pat rep = c :: pyReplace s pat rep := by
  have hneg : ¬ (pat ≠ [] ∧ startsW pat (c :: s) = true) := by
    rintro ⟨-, hsw⟩
    rw [h] at hsw
    exact Bool.false_ne_true hsw
  show replaceF (s.length + 1) (c :: s) pat rep = _
  rw [replaceF_succ, if_neg hneg]
  rfl

theorem pyReplace_match (s pat rep : List Char) (hp : pat ≠ []) :
    pyReplace (pat ++ s) pat rep = rep ++ pyReplace s pat rep := by
  cases pat with
  | nil => exact absurd rfl hp
  | cons p ps =>
    have hlen : ((p :: ps) ++ s).length = (ps ++ s).length + 1 := by simp
    show replaceF ((p :: ps) ++ s).length ((p :: ps) ++ s) _ _ = _
    rw [hlen, List.cons_append, replaceF_succ,
      if_pos ⟨hp, startsW_append_self (p :: ps) s⟩]
    have hdrop : (p :: (ps ++ s)).drop (p :: ps).length = s := by
      have h2 := List.drop_left (p :: ps) s
      simp only [List.cons_append] at h2
      exact h2
    rw [hdrop, ← pyReplace_eq_replaceF _ s _ rep (by simp)]

theorem pyReplace_skip (a s pat rep : List Char) (h : Char)
    (hph : pat.head? = some h) (hha : h ∉ a) :
    pyReplace (a ++ s) pat rep = a ++ pyReplace s pat rep := by
  induction a with
  | nil => simp
  | cons c a' ih =>
    have hc : h ≠ c := fun he => hha (by simp [he])
    cases pat with
    | nil => simp at hph
    | cons p pt =>
      have hpe : p = h := by simpa using hph
      subst hpe
      rw [List.cons_append, pyReplace_cons_neg _ _ _ _ (by simp [startsW, hc]),
        ih (fun hm => hha (List.mem_cons_of_mem _ hm))]
      rfl

/-! ### Lemmas about `goFence` / `subFenceAll` -/

theorem dropNl_length_le (s : List Char) : (dropNl s).length ≤ s.length := by
  cases s with
  | nil => simp [dropNl]
  | cons c r =>
    by_cases hc : c = '\n'
    · subst hc; simp [dropNl]
    · have : dropNl (c :: r) = c :: r := by
        unfold dropNl
        split
        · rename_i heq
          injection heq with h1 _
          exact absurd h1 hc
        · rfl
      rw [this]

theorem dropNl_of_ne (s : List Char) (h : s.head? ≠ some '\n') :
    dropNl s = s := by
  unfold dropNl
  split
  · simp at h
  · rfl

theorem goFence_nil (fuel : Nat) (pat : List Char) :
    goFence fuel pat [] = [] := by
  cases fuel <;> rfl

theorem goFence_succ (f : Nat) (c : Char) (rest pat : List Char) :
    goFence (f + 1) pat (c :: rest) =
      if pat ≠ [] ∧ startsW pat (c :: rest) then
        goFence f pat (dropNl ((c :: rest).drop pat.length))
      else c :: goFence f pat rest := rfl

theorem goFence_noOccur : ∀ (fuel : Nat) (pat s : List Char),
    containsSub s pat = false → goFence fuel pat s = s := by
  intro fuel
  induction fuel with
  | zero => intro pat s _; rfl
  | succ f ih =>
    intro pat s h
    cases s with
    | nil => rfl
    | cons c rest =>
      simp only [containsSub, Bool.or_eq_false_iff] at h
      rw [goFence_succ, if_neg, ih pat rest h.2]
      rintro ⟨-, hsw⟩
      rw [h.1] at hsw
      exact Bool.false_ne_true hsw

theorem goFence_irrel : ∀ (f : Nat) (g : Nat) (pat s : List Char),
    s.length ≤ f → s.length ≤ g → goFence f pat s = goFence g pat s := by
  intro f
  induction f with
  | zero =>
    intro g pat s hf _
    have : s = [] := List.length_eq_zero.1 (Nat.le_zero.1 hf)
    subst this
    exact (goFence_nil g pat).symm
  | succ f ih =>
    intro g pat s hf hg
    cases s with
    | nil => rw [goFence_nil, goFence_nil]
    | cons c rest =>
      cases g with
      | zero => exact absurd hg (by simp)
      | succ g =>
        rw [goFence_succ, goFence_succ]
        by_cases hcond : pat ≠ [] ∧ startsW pat (c :: rest) = true
        · rw [if_pos hcond, if_pos hcond]
          have hpl : 1 ≤ pat.length := by
            cases pat with
            | nil => exact absurd rfl hcond.1
            | cons _ _ => simp
          have hd := dropNl_length_le ((c :: rest).drop pat.length)
          have hd2 := List.length_drop pat.length (c :: rest)
          simp only [List.length_cons] at hd2
          have hlen : (dropNl ((c :: rest).drop pat.length)).length ≤ f := by
            simp only [List.length_cons] at hf
            omega
          have hlen2 : (dropNl ((c :: rest).drop pat.length)).length ≤ g := by
            simp only [List.length_cons] at hg
            omega
          exact ih g pat _ hlen hlen2
        · rw [if_neg hcond, if_neg hcond]
          have hr : rest.length ≤ f := by
            simp only [List.length_cons] at hf; omega
          have hr2 : rest.length ≤ g := by
            simp only [List.length_cons] at hg; omega
          rw [ih g pat rest hr hr2]

theorem subFenceAll_eq_goFence (f : Nat) (pat s : List Char)
    (h : s.length ≤ f) : subFenceAll pat s = goFence f pat s :=
  goFence_irrel s.length f pat s le_rfl h

theorem subFenceAll_noOccur (pat s : List Char)
    (h : containsSub s pat = false) : subFenceAll pat s = s :=
  goFence_noOccur _ pat s h

theorem subFenceAll_cons_neg (c : Char) (s pat : List Char)
    (h : startsW pat (c :: s) = false) :
    subFenceAll pat (c :: s) = c :: subFenceAll pat s := by
  have hneg : ¬ (pat ≠ [] ∧ startsW pat (c :: s) = true) := by
    rintro ⟨-, hsw⟩
    rw [h] at hsw
    exact Bool.false_ne_true hsw
  show goFence (s.length + 1) pat (c :: s) = _
  rw [goFence_succ, if_neg hneg]
  rfl

theorem subFenceAll_match (b pat : List Char) (hp : pat ≠ []) :
    subFenceAll pat (pat ++ b) = subFenceAll pat (dropNl b) := by
  cases pat with
  | nil => exact absurd rfl hp
  | cons p ps =>
    have hlen : ((p :: ps) ++ b).length = (ps ++ b).length + 1 := by simp
    show goFence ((p :: ps) ++ b).length _ _ = _
    rw [hlen, List.cons_append, goFence_succ,
      if_pos ⟨hp, startsW_append_self (p :: ps) b⟩]
    have hdrop : (p :: (ps ++ b)).drop (p :: ps).length = b := by
      have h2 := List.drop_left (p :: ps) b
      simp only [List.cons_append] at h2
      exact h2
    rw [hdrop]
    have hbl : (dropNl b).length ≤ (ps ++ b).length := by
      have := dropNl_length_le b
      simp only [List.length_append]
      omega
    rw [← subFenceAll_eq_goFence _ _ _ hbl]

theorem subFenceAll_skip (a s pat : List Char) (h : Char)
    (hph : pat.head? = some h) (hha : h ∉ a) :
    subFenceAll pat (a ++ s) = a ++ subFenceAll pat s := by
  induction a with
  | nil => simp
  | cons c a' ih =>
    have hc : h ≠ c := fun he => hha (by simp [he])
    cases pat with
    | nil => simp at hph
    | cons p pt =>
      have hpe : p = h := by simpa using hph
      subst hpe
      rw [List.cons_append, subFenceAll_cons_neg _ _ _ (by simp [startsW, hc]),
        ih (fun hm => hha (List.mem_cons_of_mem _ hm))]
      rfl

/-! ### No placeholder token can match inside a different placeholder token -/

theorem startsW_brack_aux : ∀ (n m t : List Char), '}' ∉ n → '}' ∉ m → n ≠ m →
    startsW (n ++ ['}']) (m ++ ['}'] ++ t) = false := by
  intro n
  induction n with
  | nil =>
    intro m t _ hm hne
    cases m with
    | nil => exact absurd rfl hne
    | cons c m' =>
      have hc : '}' ≠ c := fun he => hm (by simp [he.symm])
      simp [startsW, hc]
  | cons a n' ih =>
    intro m t hn hm hne
    have ha : a ≠ '}' := fun he => hn (by simp [he])
    cases m with
    | nil => simp [startsW, ha]
    | cons b m' =>
      by_cases hab : a = b
      · subst hab
        have hne' : n' ≠ m' := fun he => hne (by rw [he])
        have hn' : '}' ∉ n' := fun hmem => hn (List.mem_cons_of_mem _ hmem)
        have hm' : '}' ∉ m' := fun hmem => hm (List.mem_cons_of_mem _ hmem)
        simpa [startsW] using ih m' t hn' hm' hne'
      · simp [startsW, hab]

theorem mkPh_cross (n m t : List Char) (hn : '}' ∉ n) (hm : '}' ∉ m)
    (hne : n ≠ m) : startsW (mkPh n) (mkPh m ++ t) = false := by
  simpa [mkPh, startsW] using startsW_brack_aux n m t hn hm hne

/-! ### Digit renderings contain no braces -/

theorem digitChar_not_brace (m : Nat) (hm : m < 10) :
    digitChar m ≠ '{' ∧ digitChar m ≠ '}' := by
  interval_cases m <;> exact ⟨by decide, by decide⟩

theorem natStrF_not_brace : ∀ (fuel n : Nat) (c : Char),
    c ∈ natStrF fuel n → c ≠ '{' ∧ c ≠ '}' := by
  intro fuel
  induction fuel with
  | zero => intro n c hc; simp [natStrF] at hc
  | succ f ih =>
    intro n c hc
    by_cases h10 : n < 10
    · rw [natStrF, if_pos h10] at hc
      simp only [List.mem_singleton] at hc
      subst hc
      exact digitChar_not_brace n h10
    · rw [natStrF, if_neg h10] at hc
      rcases List.mem_append.1 hc with h | h
      · exact ih (n / 10) c h
      · simp only [List.mem_singleton] at h
        subst h
        exact digitChar_not_brace (n % 10) (Nat.mod_lt _ (by norm_num))

theorem intStr_not_brace (i : Int) (c : Char) (hc : c ∈ intStr i) :
    c ≠ '{' ∧ c ≠ '}' := by
  unfold intStr at hc
  split at hc
  · rcases List.mem_cons.1 hc with h | h
    · subst h; exact ⟨by decide, by decide⟩
    · exact natStrF_not_brace _ _ c h
  · exact natStrF_not_brace _ _ c hc

theorem intStr_brace_free (i : Int) : '{' ∉ intStr i ∧ '}' ∉ intStr i :=
  ⟨fun h => (intStr_not_brace i _ h).1 rfl,
   fun h => (intStr_not_brace i _ h).2 rfl⟩

/-! ### Templates decomposed into literal segments and placeholder tokens -/

theorem wfPieces_cons {p : TPiece} {ps : List TPiece} (h : wfPieces (p :: ps)) :
    wfPieces ps := fun q hq => h q (List.mem_cons_of_mem _ hq)

/-- One `str.replace` pass over a decomposed template substitutes exactly
the matching tokens: a `{name}` pattern can only match at a `{`, braces
occur only at token boundaries, and a token of a different brace-free name
can never begin a match. -/
theorem pyReplace_renderT (ps : List TPiece) (n v : List Char)
    (hn : '{' ∉ n ∧ '}' ∉ n) (hwf : wfPieces ps) :
    pyReplace (renderT ps) (mkPh n) v = renderT (ps.map (substTok n v)) := by
  induction ps with
  | nil => simp [renderT, pyReplace, replaceF]
  | cons p rest ih =>
    have hrest := wfPieces_cons hwf
    cases p with
    | lit s =>
      have hs := hwf (.lit s) (by simp)
      simp only at hs
      rw [renderT, pyReplace_skip s (renderT rest) (mkPh n) v '{' rfl hs.1,
        ih hrest]
      rfl
    | tok m =>
      have hm := hwf (.tok m) (by simp)
      simp only at hm
      by_cases hmn : m = n
      · subst hmn
        rw [renderT, pyReplace_match _ _ _ (by simp [mkPh]), ih hrest]
        simp [substTok, renderT]
      · have hcross := mkPh_cross n m (renderT rest) hn.2 hm.2
          (fun he => hmn he.symm)
        have hstep : mkPh m ++ renderT rest
            = '{' :: ((m ++ ['}']) ++ renderT rest) := by
          simp [mkPh]
        rw [renderT, hstep, pyReplace_cons_neg _ _ _ _ (by
            rw [← hstep]; exact hcross),
          pyReplace_skip (m ++ ['}']) (renderT rest) (mkPh n) v '{' rfl
            (by
              intro hmem
              rcases List.mem_append.1 hmem with h | h
              · exact hm.1 h
              · simp at h),
          ih hrest]
        simp [substTok, hmn, renderT, mkPh]

theorem applyNV_lit (pairs : List (List Char × List Char)) (s : List Char) :
    applyNV pairs (.lit s) = .lit s := by
  induction pairs with
  | nil => rfl
  | cons nv rest ih => simpa [applyNV, substTok] using ih

theorem wfPieces_map_substTok (ps : List TPiece) (n v : List Char)
    (hwf : wfPieces ps) (hv : '{' ∉ v ∧ '}' ∉ v) :
    wfPieces (ps.map (substTok n v)) := by
  intro q hq
  rcases List.mem_map.1 hq with ⟨p, hp, rfl⟩
  have := hwf p hp
  cases p with
  | lit s => simpa [substTok] using this
  | tok m =>
    by_cases hmn : m = n
    · simpa [substTok, hmn] using hv
    · simpa [substTok, hmn] using this

theorem foldl_map_substTok :
    ∀ (pairs : List (List Char × List Char)) (ps : List TPiece),
    pairs.foldl (fun qs nv => qs.map (substTok nv.1 nv.2)) ps
      = ps.map (applyNV pairs) := by
  intro pairs
  induction pairs with
  | nil =>
    intro ps
    rw [List.foldl_nil,
      show (applyNV [] : TPiece → TPiece) = fun p => p from rfl, List.map_id']
  | cons nv rest ih =>
    intro ps
    rw [List.foldl_cons, ih (ps.map (substTok nv.1 nv.2)), List.map_map]
    rfl

/-- Iterated passes over a decomposed template, names and values brace-free. -/
theorem foldl_pyReplace_renderT :
    ∀ (pairs : List (List Char × List Char)) (ps : List TPiece),
    (∀ nv ∈ pairs, '{' ∉ nv.1 ∧ '}' ∉ nv.1) →
    (∀ nv ∈ pairs, '{' ∉ nv.2 ∧ '}' ∉ nv.2) →
    wfPieces ps →
    (pairs.map (fun nv => (mkPh nv.1, nv.2))).foldl
        (fun acc pv => pyReplace acc pv.1 pv.2) (renderT ps)
      = renderT (ps.map (applyNV pairs)) := by
  intro pairs
  induction pairs with
  | nil =>
    intro ps _ _ _
    rw [List.map_nil, List.foldl_nil,
      show (applyNV [] : TPiece → TPiece) = fun p => p from rfl, List.map_id']
  | cons nv rest ih =>
    intro ps hnames hvals hwf
    rw [List.map_cons, List.foldl_cons,
      pyReplace_renderT ps nv.1 nv.2 (hnames nv (by simp)) hwf,
      ih _ (fun x hx => hnames x (List.mem_cons_of_mem _ hx))
        (fun x hx => hvals x (List.mem_cons_of_mem _ hx))
        (wfPieces_map_substTok ps nv.1 nv.2 hwf (hvals nv (by simp))),
      List.map_map]
    rfl

/-- A fully-literal brace-free decomposition renders to brace-free text. -/
theorem renderT_brace_free (ps : List TPiece)
    (h : ∀ p ∈ ps, ∃ s, p = TPiece.lit s ∧ '{' ∉ s ∧ '}' ∉ s) :
    '{' ∉ renderT ps ∧ '}' ∉ renderT ps := by
  induction ps with
  | nil => simp [renderT]
  | cons p rest ih =>
    obtain ⟨s, rfl, hs⟩ := h p (by simp)
    have hr := ih (fun q hq => h q (List.mem_cons_of_mem _ hq))
    rw [renderT]
    constructor
    · intro hmem
      rcases List.mem_append.1 hmem with hm | hm
      · exact hs.1 hm
      · exact hr.1 hm
    · intro hmem
      rcases List.mem_append.1 hmem with hm | hm
      · exact hs.2 hm
      · exact hr.2 hm

/-! ### Structure of the `replacements` table -/

theorem reservedPairs_eq_map (req : QuestionRequest) :
    reservedPairs req = (reservedNV req).map (fun nv => (mkPh nv.1, nv.2)) := rfl

theorem buildReplacements_eq_foldl (req : QuestionRequest) :
    buildReplacements req
      = (req.extras.filter (fun kv => kv.2 ≠ Value.vNull)).foldl extraStep
          (reservedPairs req) := rfl

/-- The scan only appends, and appends only placeholder-shaped keys with
`str()`-rendered values. -/
theorem foldl_extraStep_exists :
    ∀ (items : List (List Char × Value)) (acc : List (List Char × List Char)),
    ∃ added, items.foldl extraStep acc = acc ++ added
      ∧ ∀ pv ∈ added, ∃ k v, pv = (mkPh k, pyStrVal v) := by
  intro items
  induction items with
  | nil => exact fun acc => ⟨[], by simp⟩
  | cons kv rest ih =>
    intro acc
    rw [List.foldl_cons]
    unfold extraStep
    by_cases h1 : kv.1 ∈ excludedFields
    · rw [if_pos h1]; exact ih acc
    · rw [if_neg h1]
      by_cases h2 : acc.any (fun p => p.1 = mkPh kv.1) = true
      · rw [if_pos h2]; exact ih acc
      · rw [if_neg h2]
        obtain ⟨added, heq, hall⟩ := ih (acc ++ [(mkPh kv.1, pyStrVal kv.2)])
        refine ⟨(mkPh kv.1, pyStrVal kv.2) :: added, by simpa using heq, ?_⟩
        intro pv hpv
        rcases List.mem_cons.1 hpv with rfl | hpv
        · exact ⟨kv.1, kv.2, rfl⟩
        · exact hall pv hpv

/-- Passes for appended extra entries cannot touch a brace-free string. -/
theorem foldl_pyReplace_free (added : List (List Char × List Char))
    (s : List Char) (hk : ∀ pv ∈ added, ∃ k v, pv = (mkPh k, v))
    (hs : '{' ∉ s) :
    added.foldl (fun acc pv => pyReplace acc pv.1 pv.2) s = s := by
  induction added with
  | nil => rfl
  | cons pv rest ih =>
    obtain ⟨k, v, rfl⟩ := hk pv (by simp)
    rw [List.foldl_cons]
    have hno : containsSub s (mkPh k) = false :=
      containsSub_false_of_head '{' (k ++ ['}']) s hs
    rw [pyReplace_noOccur s (mkPh k) v hno]
    exact ih (fun x hx => hk x (List.mem_cons_of_mem _ hx))

/-! ### Stage 1 removes fence markers anywhere in the text -/

theorem head_ne_of_notMem (h : Char) (s : List Char) (hs : h ∉ s) :
    s.head? ≠ some h := by
  cases s with
  | nil => simp
  | cons c cs =>
    have : h ≠ c := fun he => hs (by simp [he])
    simp [this.symm]

/-- A backtick-free text followed by a lone fence marker followed by a
backtick-free continuation (not starting with `j` or a newline): stage 1
deletes the mid-text marker. -/
theorem stage1Clean_mid_fence (a b : List Char)
    (ha : '`' ∉ a) (hb : '`' ∉ b) (hbj : b.head? ≠ some 'j')
    (hbn : b.head? ≠ some '\n') :
    stage1Clean (a ++ fencePat ++ b) = pyStrip (a ++ b) := by
  have hbt : b.head? ≠ some '`' := head_ne_of_notMem '`' b hb
  have hjson : subFenceAll fenceJsonPat (a ++ fencePat ++ b)
      = a ++ fencePat ++ b := by
    rw [List.append_assoc, subFenceAll_skip a (fencePat ++ b) fenceJsonPat '`' rfl ha]
    have h1 : startsW fenceJsonPat ('`' :: '`' :: '`' :: b) = false := by
      show startsW ('`' :: '`' :: '`' :: "json".toList) ('`' :: '`' :: '`' :: b) = false
      simp only [startsW, beq_self_eq_true, Bool.true_and]
      exact startsW_ne_head 'j' "son".toList b hbj
    have h2 : startsW fenceJsonPat ('`' :: '`' :: b) = false := by
      show startsW ('`' :: '`' :: '`' :: "json".toList) ('`' :: '`' :: b) = false
      simp only [startsW, beq_self_eq_true, Bool.true_and]
      exact startsW_ne_head '`' "json".toList b hbt
    have h3 : startsW fenceJsonPat ('`' :: b) = false := by
      show startsW ('`' :: '`' :: '`' :: "json".toList) ('`' :: b) = false
      simp only [startsW, beq_self_eq_true, Bool.true_and]
      exact startsW_ne_head '`' ('`' :: "json".toList) b hbt
    have hb0 : subFenceAll fenceJsonPat b = b :=
      subFenceAll_noOccur _ _ (containsSub_false_of_head '`' _ b hb)
    show a ++ subFenceAll fenceJsonPat ('`' :: '`' :: '`' :: b) = a ++ ('`' :: '`' :: '`' :: b)
    rw [subFenceAll_cons_neg _ _ _ h1, subFenceAll_cons_neg _ _ _ h2,
      subFenceAll_cons_neg _ _ _ h3, hb0]
  have hfence : subFenceAll fencePat (a ++ fencePat ++ b) = a ++ b := by
    rw [List.append_assoc, subFenceAll_skip a (fencePat ++ b) fencePat '`' rfl ha,
      subFenceAll_match b fencePat (by simp [fencePat]), dropNl_of_ne b hbn,
      subFenceAll_noOccur _ _
        (show containsSub b fencePat = false from
          containsSub_false_of_head '`' ['`', '`'] b hb)]
  unfold stage1Clean
  rw [hjson, hfence]

/-! ### Claim theorems -/

/-- C3: for every cleaned text whose strict decode succeeds,
`parse_llm_response` returns the decoded value itself when it is a list,
the value under the key `questions` when it is a keyed structure containing
that key, and otherwise a one-element list wrapping the single decoded
value. -/
theorem C3_decode_shape (text : List Char) (v : Json)
    (h : jsonParse (stage1Clean text) = some v) :
    parse_llm_response text = .ok (stage2Shape v) := by
  unfold parse_llm_response
  dsimp only
  rw [h]
  cases v with
  | obj kvs =>
    dsimp only [stage2Shape]
    split <;> rfl
  | null => rfl
  | bool b => rfl
  | num n => rfl
  | numF l => rfl
  | str s => rfl
  | arr l => rfl

/-- C3 witness: recovery of the keyed example returns the two-element inner
list. -/
theorem C3_decode_shape_witness :
    parse_llm_response exC3 =
      .ok (Json.arr [Json.obj [("id".toList, Json.num 1)],
                     Json.obj [("id".toList, Json.num 2)]]) := by
  have h := C3_decode_shape exC3
    (Json.obj [("questions".toList,
      Json.arr [Json.obj [("id".toList, Json.num 1)],
                Json.obj [("id".toList, Json.num 2)]])]) rfl
  exact h.trans rfl

/-- C4: `parse_llm_response` fails, with exactly the ParseError message the
source raises, precisely when the strict decode of the cleaned text fails
and the bracket-span fallback also fails (no span, or its decode fails);
the error carries no records. -/
theorem C4_failure_iff (text : List Char) :
    parse_llm_response text = .error parseFailure
      ↔ (jsonParse (stage1Clean text) = none
          ∧ ∀ sub, bracketSpan (stage1Clean text) = some sub →
              jsonParse sub = none) := by
  unfold parse_llm_response
  dsimp only
  constructor
  · intro h
    cases hj : jsonParse (stage1Clean text) with
    | some q =>
      rw [hj] at h
      cases q with
      | obj kvs =>
        dsimp only at h
        split at h <;> simp at h
      | null => simp at h
      | bool b => simp at h
      | num n => simp at h
      | numF l => simp at h
      | str s => simp at h
      | arr l => simp at h
    | none =>
      rw [hj] at h
      dsimp only at h
      refine ⟨rfl, ?_⟩
      intro sub hsub
      rw [hsub] at h
      dsimp only at h
      cases hv : jsonParse sub with
      | some v => rw [hv] at h; simp at h
      | none => rfl
  · rintro ⟨h1, h2⟩
    rw [h1]
    dsimp only
    cases hb : bracketSpan (stage1Clean text) with
    | some sub =>
      dsimp only
      rw [h2 sub hb]
    | none => rfl

/-- C4 witness: recovery of prose with no bracket span fails with the
ParseError. -/
theorem C4_failure_iff_witness :
    parse_llm_response exC4 = .error parseFailure :=
  (C4_failure_iff exC4).2 ⟨rfl, fun _ h => Option.noConfusion h⟩

/-- C5: when the strict decode of the cleaned text fails,
`parse_llm_response` takes the greedy span from the first `[` to the last
`]` of the cleaned text, strict-decodes that substring alone, and returns
the decoded value directly if that decode succeeds. -/
theorem C5_bracket_fallback (text sub : List Char) (v : Json)
    (h1 : jsonParse (stage1Clean text) = none)
    (h2 : bracketSpan (stage1Clean text) = some sub)
    (h3 : jsonParse sub = some v) :
    parse_llm_response text = .ok v := by
  unfold parse_llm_response
  dsimp only
  rw [h1]
  dsimp only
  rw [h2]
  dsimp only
  rw [h3]

/-- C5 witness: the prose-wrapped array example is recovered via the
bracket-span fallback. -/
theorem C5_bracket_fallback_witness :
    parse_llm_response exC5 =
      .ok (Json.arr [Json.obj [("id".toList, Json.num 1)]]) :=
  C5_bracket_fallback exC5 exC5span
    (Json.arr [Json.obj [("id".toList, Json.num 1)]]) rfl rfl rfl

/-- C10: when the cleaned text decodes to a keyed structure whose
`questions` value is not a list, the entry point returns that non-list
value unchanged, despite its declared list-of-records result type. -/
theorem C10_nonlist_questions :
    parse_llm_response exC10 = .ok (Json.str "hi".toList)
      ∧ jsonIsArr (Json.str "hi".toList) = false :=
  ⟨rfl, rfl⟩

/-- C2 counterexample: on a text whose only fence marker sits mid-text
(inside a JSON string literal, with no leading or trailing marker and no
surrounding whitespace), the code's Stage 1 deletes the marker while the
claimed leading/trailing-only stripping leaves the text unchanged, and the
difference is observable in the parse result. -/
theorem C2_counterexample :
    stage1Clean exC2mid ≠ stage1Claimed exC2mid
      ∧ stage1Claimed exC2mid = exC2mid
      ∧ parse_llm_response exC2mid = .ok (Json.arr [Json.str "ab".toList]) :=
  ⟨by decide, by decide, rfl⟩

/-- C2 amended: Stage 1 removes every occurrence of a fence marker anywhere
in the text (each with one optional following newline), then strips
surrounding whitespace — here for a marker between backtick-free texts —
and recovery of the fenced example still returns the one-element list. -/
theorem C2_remove_fences_anywhere (a b : List Char)
    (ha : '`' ∉ a) (hb : '`' ∉ b) (hbj : b.head? ≠ some 'j')
    (hbn : b.head? ≠ some '\n') :
    stage1Clean (a ++ fencePat ++ b) = pyStrip (a ++ b)
      ∧ parse_llm_response exC2 =
          .ok (Json.arr [Json.obj [("id".toList, Json.num 1)]]) :=
  ⟨stage1Clean_mid_fence a b ha hb hbj hbn, rfl⟩

/-- C2 witness: a concrete mid-text fence marker is deleted by Stage 1. -/
theorem C2_remove_fences_anywhere_witness :
    stage1Clean ("x: ".toList ++ fencePat ++ " [1]".toList)
        = pyStrip ("x: ".toList ++ " [1]".toList)
      ∧ parse_llm_response exC2 =
          .ok (Json.arr [Json.obj [("id".toList, Json.num 1)]]) :=
  C2_remove_fences_anywhere "x: ".toList " [1]".toList
    (by decide) (by decide) (by decide) (by decide)

/-- Replacing a whole pattern by itself-as-text yields the replacement. -/
theorem pyReplace_self (pat rep : List Char) (hp : pat ≠ []) :
    pyReplace pat pat rep = rep := by
  have h := pyReplace_match [] pat rep hp
  rw [List.append_nil] at h
  rw [h, show pyReplace [] pat rep = [] from rfl, List.append_nil]

/-- C1 counterexample: with template `{subject}` and subject value
`{language}`, the language token inside the substituted subject value is
itself substituted by the later `{language}` pass — the returned prompt is
the language value, and the token does not remain as literal text. -/
theorem C1_counterexample :
    generate_prompt reqC1 = "en".toList
      ∧ containsSub (generate_prompt reqC1) (mkPh "language".toList) = false :=
  ⟨rfl, by decide⟩

/-- C1 amended: substitution is one literal replace-all pass per table
entry in fixed table order (count, subject, year_band, ema, age, language,
context, then extras), so a token inside a substituted value is replaced
exactly when its entry comes later in that order: under template
`{subject}`, a `{count}` token inside the subject value survives as literal
text (its pass already ran), while a `{language}` token inside the subject
value is substituted by the later language pass. -/
theorem C1_sequential_substitution (req : QuestionRequest)
    (h0 : req.extras = [])
    (ht : req.template = some (mkPh "subject".toList)) :
    (req.subject = mkPh "count".toList →
        generate_prompt req = mkPh "count".toList)
    ∧ (req.subject = mkPh "language".toList →
        containsSub req.context.language (mkPh "context".toList) = false →
        generate_prompt req = req.context.language) := by
  have hbr : buildReplacements req = reservedPairs req := by
    rw [buildReplacements_eq_foldl, h0]
    rfl
  have hgen : generate_prompt req
      = substituteTemplate req (mkPh "subject".toList) := by
    unfold generate_prompt
    rw [ht]
    rfl
  constructor
  · intro hsubj
    rw [hgen]
    unfold substituteTemplate
    rw [hbr]
    simp only [reservedPairs, List.foldl_cons, List.foldl_nil]
    rw [pyReplace_noOccur (mkPh "subject".toList) (mkPh "count".toList)
        (intStr req.count) (by decide),
      hsubj,
      pyReplace_self (mkPh "subject".toList) (mkPh "count".toList) (by decide),
      pyReplace_noOccur (mkPh "count".toList) (mkPh "year_band".toList)
        req.year_band (by decide),
      pyReplace_noOccur (mkPh "count".toList) (mkPh "ema".toList)
        req.ema.repr (by decide),
      pyReplace_noOccur (mkPh "count".toList) (mkPh "age".toList)
        (intStr req.context.age) (by decide),
      pyReplace_noOccur (mkPh "count".toList) (mkPh "language".toList)
        req.context.language (by decide),
      pyReplace_noOccur (mkPh "count".toList) (mkPh "context".toList)
        (format_context_fields req.context) (by decide)]
  · intro hsubj hlang
    rw [hgen]
    unfold substituteTemplate
    rw [hbr]
    simp only [reservedPairs, List.foldl_cons, List.foldl_nil]
    rw [pyReplace_noOccur (mkPh "subject".toList) (mkPh "count".toList)
        (intStr req.count) (by decide),
      hsubj,
      pyReplace_self (mkPh "subject".toList) (mkPh "language".toList) (by decide),
      pyReplace_noOccur (mkPh "language".toList) (mkPh "year_band".toList)
        req.year_band (by decide),
      pyReplace_noOccur (mkPh "language".toList) (mkPh "ema".toList)
        req.ema.repr (by decide),
      pyReplace_noOccur (mkPh "language".toList) (mkPh "age".toList)
        (intStr req.context.age) (by decide),
      pyReplace_self (mkPh "language".toList) req.context.language (by decide),
      pyReplace_noOccur req.context.language (mkPh "context".toList)
        (format_context_fields req.context) hlang]

/-- C1 witness: both table-order behaviours at concrete requests. -/
theorem C1_sequential_substitution_witness :
    generate_prompt reqC1b = mkPh "count".toList
      ∧ generate_prompt reqC1 = "en".toList :=
  ⟨(C1_sequential_substitution reqC1b rfl rfl).1 rfl,
   (C1_sequential_substitution reqC1 rfl rfl).2 rfl (by decide)⟩

/-- C8 counterexample: a request whose template is present but the empty
string is handled by the default mode — the substituted template text (the
empty string) is not returned. -/
theorem C8_counterexample :
    reqC8.template = some []
      ∧ generate_prompt reqC8 ≠ substituteTemplate reqC8 []
      ∧ generate_prompt reqC8 = defaultPrompt reqC8 :=
  ⟨rfl, by decide, rfl⟩

/-- C8 amended: the two modes are selected by Python truthiness of the
template field — the substitution mode runs exactly for a present, nonempty
template; an absent or empty template selects the subject-based default
mode. -/
theorem C8_mode_selection (req : QuestionRequest) :
    (∀ t, req.template = some t → t ≠ [] →
        generate_prompt req = substituteTemplate req t)
    ∧ (req.template = none ∨ req.template = some [] →
        generate_prompt req = defaultPrompt req) := by
  constructor
  · intro t ht hne
    unfold generate_prompt
    rw [ht]
    have htr : pyTruthyOptStr (some t) = true := by
      simp [pyTruthyOptStr, hne]
    rw [htr]
    rfl
  · rintro (h | h) <;> rw [generate_prompt, h] <;> rfl

/-- C8 witness: both modes at concrete requests. -/
theorem C8_mode_selection_witness :
    generate_prompt reqC1 = substituteTemplate reqC1 (mkPh "subject".toList)
      ∧ generate_prompt reqC8 = defaultPrompt reqC8 :=
  ⟨(C8_mode_selection reqC1).1 (mkPh "subject".toList) rfl (by decide),
   (C8_mode_selection reqC8).2 (Or.inr rfl)⟩

/-- Placeholder wrapping is injective. -/
theorem mkPh_inj {a b : List Char} (h : mkPh a = mkPh b) : a = b := by
  unfold mkPh at h
  injection h with _ h2
  exact (List.append_left_inj _).1 h2

theorem reservedPairs_keys (req : QuestionRequest) :
    (reservedPairs req).map Prod.fst = reservedNames.map mkPh := rfl

/-- Every table entry either was there initially or has a key that was not
there initially: the scan never overwrites. -/
theorem foldl_extraStep_mem :
    ∀ (items : List (List Char × Value)) (acc : List (List Char × List Char))
      (pair : List Char × List Char),
    pair ∈ items.foldl extraStep acc →
    pair ∈ acc ∨ pair.1 ∉ acc.map Prod.fst := by
  intro items
  induction items with
  | nil =>
    intro acc pair h
    exact Or.inl (by simpa using h)
  | cons kv rest ih =>
    intro acc pair h
    rw [List.foldl_cons] at h
    rcases ih (extraStep acc kv) pair h with h1 | h1
    · unfold extraStep at h1
      split_ifs at h1 with e1 e2
      · exact Or.inl h1
      · exact Or.inl h1
      · rcases List.mem_append.1 h1 with h2 | h2
        · exact Or.inl h2
        · simp only [List.mem_singleton] at h2
          subst h2
          refine Or.inr (fun hmem => e2 ?_)
          rw [List.any_eq_true]
          rcases List.mem_map.1 hmem with ⟨p, hp, hfst⟩
          exact ⟨p, hp, by simp [hfst]⟩
    · refine Or.inr (fun hmem => h1 ?_)
      unfold extraStep
      split_ifs
      · exact hmem
      · exact hmem
      · rw [List.map_append]
        exact List.mem_append_left _ hmem

/-- The scan only ever appends entries. -/
theorem foldl_extraStep_mono (items : List (List Char × Value))
    (acc : List (List Char × List Char)) (pair : List Char × List Char)
    (h : pair ∈ acc) : pair ∈ items.foldl extraStep acc := by
  obtain ⟨added, heq, -⟩ := foldl_extraStep_exists items acc
  rw [heq]
  exact List.mem_append_left _ h

/-- A scanned field with a fresh placeholder is appended. -/
theorem foldl_extraStep_adds :
    ∀ (items : List (List Char × Value)) (acc : List (List Char × List Char))
      (k : List Char) (v : Value),
    (items.map Prod.fst).Nodup → (k, v) ∈ items → k ∉ excludedFields →
    mkPh k ∉ acc.map Prod.fst →
    (mkPh k, pyStrVal v) ∈ items.foldl extraStep acc := by
  intro items
  induction items with
  | nil =>
    intro acc k v _ h
    simp at h
  | cons kv rest ih =>
    intro acc k v hnd hmem hk hacc
    obtain ⟨k0, v0⟩ := kv
    rw [List.foldl_cons]
    rcases List.mem_cons.1 hmem with heq | hmem2
    · have hk0 : k0 = k := (Prod.mk.injEq _ _ _ _ ▸ heq.symm).1
      have hv0 : v0 = v := (Prod.mk.injEq _ _ _ _ ▸ heq.symm).2
      subst hk0
      subst hv0
      have hstep : extraStep acc (k0, v0) = acc ++ [(mkPh k0, pyStrVal v0)] := by
        unfold extraStep
        rw [if_neg hk, if_neg]
        intro hany
        rcases List.any_eq_true.1 hany with ⟨p, hp, he⟩
        simp only [decide_eq_true_eq] at he
        exact hacc (he ▸ List.mem_map.2 ⟨p, hp, rfl⟩)
      rw [hstep]
      exact foldl_extraStep_mono rest _ _ (List.mem_append_right _ (by simp))
    · have hkeys : k ∈ rest.map Prod.fst := List.mem_map.2 ⟨(k, v), hmem2, rfl⟩
      have hk1 : k0 ≠ k := by
        intro he
        rw [List.map_cons] at hnd
        exact (List.nodup_cons.1 hnd).1 (he ▸ hkeys)
      apply ih (extraStep acc (k0, v0)) k v
        (by rw [List.map_cons] at hnd; exact (List.nodup_cons.1 hnd).2) hmem2 hk
      unfold extraStep
      split_ifs
      · exact hacc
      · exact hacc
      · rw [List.map_append]
        intro hmm
        rcases List.mem_append.1 hmm with h | h
        · exact hacc h
        · simp only [List.map_cons, List.map_nil, List.mem_singleton] at h
          exact hk1 (mkPh_inj h.symm)

/-- C7: a top-level extra request field outside the excluded set (scanned
via `request.dict(exclude_none=True)`, hence with a non-null value) is
added to the substitution table under its own name exactly when its name is
not reserved; for a reserved name, the only table entry under that
placeholder is the reserved one, so the reserved value is the one
substituted. -/
theorem C7_extra_placeholders (req : QuestionRequest) (k : List Char)
    (v : Value) (hmem : (k, v) ∈ req.extras) (hv : v ≠ Value.vNull)
    (hk : k ∉ excludedFields)
    (hnodup : (req.extras.map Prod.fst).Nodup) :
    (k ∈ reservedNames →
        ∀ val, (mkPh k, val) ∈ buildReplacements req →
          (mkPh k, val) ∈ reservedPairs req)
    ∧ (k ∉ reservedNames →
        (mkPh k, pyStrVal v) ∈ buildReplacements req) := by
  constructor
  · intro hres val hvalmem
    rw [buildReplacements_eq_foldl] at hvalmem
    rcases foldl_extraStep_mem _ _ _ hvalmem with h | h
    · exact h
    · exfalso
      apply h
      rw [reservedPairs_keys req]
      exact List.mem_map.2 ⟨k, hres, rfl⟩
  · intro hres
    rw [buildReplacements_eq_foldl]
    apply foldl_extraStep_adds
    · exact ((List.filter_sublist _).map Prod.fst).nodup hnodup
    · rw [List.mem_filter]
      exact ⟨hmem, by simp [hv]⟩
    · exact hk
    · intro hmm
      rw [reservedPairs_keys req] at hmm
      rcases List.mem_map.1 hmm with ⟨n, hn, he⟩
      exact hres (mkPh_inj he ▸ hn)

/-- C7 witness: at a concrete request, the extra `topic` is added while the
extra `age` yields no table entry beyond the reserved one. -/
theorem C7_extra_placeholders_witness :
    (mkPh "topic".toList, "algebra".toList) ∈ buildReplacements reqC7
      ∧ ∀ val, (mkPh "age".toList, val) ∈ buildReplacements reqC7 →
          (mkPh "age".toList, val) ∈ reservedPairs reqC7 :=
  ⟨(C7_extra_placeholders reqC7 "topic".toList (Value.vStr "algebra".toList)
      (by decide) (by decide) (by decide) (by decide)).2 (by decide),
   fun val => (C7_extra_placeholders reqC7 "age".toList (Value.vInt 99)
      (by decide) (by decide) (by decide) (by decide)).1 (by decide) val⟩

/-- C9 counterexample: the template consists of exactly one reserved
placeholder (`{language}`), yet the built prompt is the brace token `{foo}`
carried in by the language value — a remaining `{...}` token. -/
theorem C9_counterexample :
    reqC9.template = some (renderT [TPiece.tok "language".toList])
      ∧ generate_prompt reqC9 = mkPh "foo".toList
      ∧ '{' ∈ generate_prompt reqC9 :=
  ⟨rfl, rfl, by decide⟩

/-- C9 amended: for a nonempty template decomposed into brace-free literal
text and reserved placeholder tokens only, the built prompt contains no
brace characters, provided the string renderings of the request's fields
(subject, year band, EMA, language) and the formatted context are
brace-free — the integer renderings of count and age are brace-free
unconditionally. -/
theorem C9_reserved_template_no_braces (req : QuestionRequest)
    (ps : List TPiece)
    (htm : req.template = some (renderT ps))
    (hne : renderT ps ≠ [])
    (htoks : ∀ p ∈ ps, match p with
      | TPiece.lit s => '{' ∉ s ∧ '}' ∉ s
      | TPiece.tok m => m ∈ reservedNames)
    (hsub : '{' ∉ req.subject ∧ '}' ∉ req.subject)
    (hyb : '{' ∉ req.year_band ∧ '}' ∉ req.year_band)
    (hema : '{' ∉ req.ema.repr ∧ '}' ∉ req.ema.repr)
    (hlang : '{' ∉ req.context.language ∧ '}' ∉ req.context.language)
    (hctx : '{' ∉ format_context_fields req.context
            ∧ '}' ∉ format_context_fields req.context) :
    '{' ∉ generate_prompt req ∧ '}' ∉ generate_prompt req := by
  have hgen : generate_prompt req = substituteTemplate req (renderT ps) := by
    unfold generate_prompt
    rw [htm]
    have htr : pyTruthyOptStr (some (renderT ps)) = true := by
      simp [pyTruthyOptStr, hne]
    rw [htr]
    rfl
  obtain ⟨added, heq, hkeys⟩ :=
    foldl_extraStep_exists (req.extras.filter (fun kv => kv.2 ≠ Value.vNull))
      (reservedPairs req)
  have hall : ∀ n ∈ reservedNames, '{' ∉ n ∧ '}' ∉ n := by decide
  have hwf : wfPieces ps := by
    intro p hp
    have hpp := htoks p hp
    cases p with
    | lit s => exact hpp
    | tok m =>
      simp only at hpp ⊢
      exact hall m hpp
  have hnames : ∀ nv ∈ reservedNV req, '{' ∉ nv.1 ∧ '}' ∉ nv.1 := by
    intro nv hnv
    simp only [reservedNV, List.mem_cons, List.not_mem_nil, or_false] at hnv
    rcases hnv with rfl | rfl | rfl | rfl | rfl | rfl | rfl
    · exact show '{' ∉ "count".toList ∧ '}' ∉ "count".toList from by decide
    · exact show '{' ∉ "subject".toList ∧ '}' ∉ "subject".toList from by decide
    · exact show '{' ∉ "year_band".toList ∧ '}' ∉ "year_band".toList from by decide
    · exact show '{' ∉ "ema".toList ∧ '}' ∉ "ema".toList from by decide
    · exact show '{' ∉ "age".toList ∧ '}' ∉ "age".toList from by decide
    · exact show '{' ∉ "language".toList ∧ '}' ∉ "language".toList from by decide
    · exact show '{' ∉ "context".toList ∧ '}' ∉ "context".toList from by decide
  have hvals : ∀ nv ∈ reservedNV req, '{' ∉ nv.2 ∧ '}' ∉ nv.2 := by
    intro nv hnv
    simp only [reservedNV, List.mem_cons, List.not_mem_nil, or_false] at hnv
    rcases hnv with rfl | rfl | rfl | rfl | rfl | rfl | rfl
    · exact intStr_brace_free req.count
    · exact hsub
    · exact hyb
    · exact hema
    · exact intStr_brace_free req.context.age
    · exact hlang
    · exact hctx
  have hpass :
      (reservedPairs req).foldl (fun acc pv => pyReplace acc pv.1 pv.2)
          (renderT ps)
        = renderT (ps.map (applyNV (reservedNV req))) := by
    rw [reservedPairs_eq_map req]
    exact foldl_pyReplace_renderT (reservedNV req) ps hnames hvals hwf
  have hlit : ∀ q ∈ ps.map (applyNV (reservedNV req)),
      ∃ s, q = TPiece.lit s ∧ '{' ∉ s ∧ '}' ∉ s := by
    intro q hq
    rcases List.mem_map.1 hq with ⟨p, hp, rfl⟩
    have hpp := htoks p hp
    cases p with
    | lit s =>
      rw [applyNV_lit]
      exact ⟨s, rfl, hpp⟩
    | tok m =>
      simp only [reservedNames, List.mem_cons, List.not_mem_nil, or_false] at hpp
      rcases hpp with rfl | rfl | rfl | rfl | rfl | rfl | rfl
      · exact ⟨intStr req.count, rfl, intStr_brace_free req.count⟩
      · exact ⟨req.subject, rfl, hsub⟩
      · exact ⟨req.year_band, rfl, hyb⟩
      · exact ⟨req.ema.repr, rfl, hema⟩
      · exact ⟨intStr req.context.age, rfl, intStr_brace_free req.context.age⟩
      · exact ⟨req.context.language, rfl, hlang⟩
      · exact ⟨format_context_fields req.context, rfl, hctx⟩
  have hbf := renderT_brace_free _ hlit
  rw [hgen]
  unfold substituteTemplate
  rw [buildReplacements_eq_foldl, heq, List.foldl_append, hpass,
    foldl_pyReplace_free added _
      (fun pv hpv => by
        obtain ⟨kk, vv, he⟩ := hkeys pv hpv
        exact ⟨kk, pyStrVal vv, he⟩)
      hbf.1]
  exact hbf

/-- C9 witness: a concrete reserved-only template over plain field values
builds a brace-free prompt. -/
theorem C9_reserved_template_no_braces_witness :
    '{' ∉ generate_prompt reqC9w ∧ '}' ∉ generate_prompt reqC9w :=
  C9_reserved_template_no_braces reqC9w psW rfl (by decide)
    (by
      intro p hp
      simp only [psW, List.mem_cons, List.not_mem_nil, or_false] at hp
      rcases hp with rfl | rfl | rfl | rfl <;> exact (by decide))
    (by decide) (by decide) (by decide) (by decide) (by decide)

/-- A conditional-append fold is the base followed by the mapped filter. -/
theorem foldl_if_filter {α β : Type} (P : α → Prop) [DecidablePred P]
    (g : α → β) :
    ∀ (items : List α) (base : List β),
    items.foldl (fun acc kv => if P kv then acc else acc ++ [g kv]) base
      = base ++ (items.filter (fun kv => decide ¬ P kv)).map g := by
  intro items
  induction items with
  | nil =>
    intro base
    simp
  | cons kv rest ih =>
    intro base
    rw [List.foldl_cons]
    by_cases h : P kv
    · rw [if_pos h, ih, List.filter_cons]
      simp [h]
    · rw [if_neg h, ih, List.filter_cons]
      simp [h]

/-- The extra lines of `format_context_fields`: the declared entries of the
context dict all carry standard names and are skipped, leaving exactly the
non-null extra fields with non-standard names, in arrival order. -/
theorem contextLines_eq (c : Context) :
    contextLines c
      = baseLines c
        ++ (((c.extras.filter (fun kv => kv.2 ≠ Value.vNull)).filter
              (fun kv => decide ¬ (kv.1 ∈ standardFields))).map extraLine) := by
  unfold contextLines
  rw [foldl_if_filter (fun kv => kv.1 ∈ standardFields) extraLine
    (contextDict c) (baseLines c)]
  congr 2
  unfold contextDict
  have h1 : (['a', 'g', 'e'] : List Char) ∈ standardFields := by decide
  have h2 : (['o', 'n', 'b', 'o', 'a', 'r', 'd', 'i', 'n', 'g', '_', 'e', 'n',
      'g', 'l', 'i', 's', 'h', '_', 's', 'c', 'o', 'r', 'e'] : List Char)
      ∈ standardFields := by decide
  have h3 : (['o', 'n', 'b', 'o', 'a', 'r', 'd', 'i', 'n', 'g', '_', 'm', 'a',
      't', 'h', '_', 's', 'c', 'o', 'r', 'e'] : List Char)
      ∈ standardFields := by decide
  have h4 : (['l', 'a', 'n', 'g', 'u', 'a', 'g', 'e'] : List Char)
      ∈ standardFields := by decide
  cases c.onboarding_english_score with
  | none =>
    cases c.onboarding_math_score with
    | none => simp [List.filter_append, List.filter_cons, h1, h2, h3, h4]
    | some m2 => simp [List.filter_append, List.filter_cons, h1, h2, h3, h4]
  | some n =>
    cases c.onboarding_math_score with
    | none => simp [List.filter_append, List.filter_cons, h1, h2, h3, h4]
    | some m2 => simp [List.filter_append, List.filter_cons, h1, h2, h3, h4]

/-- Disjointly-labelled blocks concatenate to a duplicate-free label list. -/
theorem nodup_std_append (A E : List (List Char))
    (hA : A.Nodup) (hAstd : ∀ k ∈ A, k ∈ standardFields)
    (hE : E.Nodup) (hEstd : ∀ k ∈ E, k ∉ standardFields) :
    (A ++ E).Nodup := by
  rw [List.nodup_append]
  exact ⟨hA, hE, fun a ha hmem => hEstd a hmem (hAstd a ha)⟩

/-- C6 counterexample: a null-valued extra field is dropped by
`context.dict(exclude_none=True)` and gets no line, so the output differs
from the claimed formatter, which emits a line for every extra field. -/
theorem C6_counterexample :
    format_context_fields ctxC6 ≠ formatContextClaimed ctxC6
      ∧ format_context_fields ctxC6 = "- Age: 7\n- Language: en".toList
      ∧ containsSub (formatContextClaimed ctxC6) "- Note: None".toList = true :=
  ⟨by decide, by decide, by decide⟩

/-- C6 amended: the formatter emits, in fixed order, age, the english score
when present, the math score when present, then language, and afterwards
one line per NON-NULL extra field not among the four standard names, in
arrival order, with the name rewritten to space-separated Title Case and
followed by the literal value; the output is newline-joined with no
trailing newline (a total function of the context).  When the extra field
names are distinct, no two lines come from the same logical field. -/
theorem C6_formatter_shape (c : Context) :
    format_context_fields c = formatContextAmended c
      ∧ ((c.extras.map Prod.fst).Nodup → (emittedFields c).Nodup) := by
  constructor
  · unfold format_context_fields formatContextAmended
    rw [contextLines_eq]
  · intro hnd
    unfold emittedFields
    apply nodup_std_append
    · unfold stdEmitted
      cases c.onboarding_english_score with
      | none =>
        cases c.onboarding_math_score with
        | none => dsimp only; decide
        | some m2 => dsimp only; decide
      | some n =>
        cases c.onboarding_math_score with
        | none => dsimp only; decide
        | some m2 => dsimp only; decide
    · unfold stdEmitted
      cases c.onboarding_english_score with
      | none =>
        cases c.onboarding_math_score with
        | none => dsimp only; decide
        | some m2 => dsimp only; decide
      | some n =>
        cases c.onboarding_math_score with
        | none => dsimp only; decide
        | some m2 => dsimp only; decide
    · unfold extraEmitted
      have hsub : List.Sublist
          (((c.extras.filter (fun kv => kv.2 ≠ Value.vNull)).filter
              (fun kv => kv.1 ∉ standardFields)).map Prod.fst)
          (c.extras.map Prod.fst) :=
        ((List.filter_sublist _).trans (List.filter_sublist _)).map Prod.fst
      exact hnd.sublist hsub
    · unfold extraEmitted
      intro k hk
      rcases List.mem_map.1 hk with ⟨kv, hkv, rfl⟩
      have hvf := List.of_mem_filter hkv
      simpa using hvf

/-- C6 witness: a concrete context with an ordinary extra field. -/
theorem C6_formatter_shape_witness :
    format_context_fields ctxC6w = formatContextAmended ctxC6w
      ∧ (emittedFields ctxC6w).Nodup :=
  ⟨(C6_formatter_shape ctxC6w).1, (C6_formatter_shape ctxC6w).2 (by decide)⟩

end ThinkiQG
